import Mathlib

/-!
Shallow embedding of the summarizer module of the research-paper-aggregator
repository (`src/summarizer.py`, class `PaperSummarizer`), together with
theorems settling the specification claims about it.

Modelling conventions:
* Python strings are Lean `String`s; character-level operations are carried
  out on `String.data` (a `List Char`), matching Python's per-character
  slicing and splitting semantics for the ASCII texts at issue.
* The tiktoken tokenizer behind `_count_tokens` is an external library, so
  it is modelled as an abstract parameter `count : String → Nat` that is
  threaded through the functions that use it.
* The Anthropic client is an external collaborator; each generation call
  site is modelled as a fallible oracle (`Except String String`) supplied
  with the same arguments the source builds its prompt from.  `self.client`
  being `None` is modelled as an `Option` on the whole oracle bundle.
* The two regular expressions used by the module (`detect_sections`
  patterns and the reference-stripping split) share one shape:
  newline, optional whitespace, an optional numeric prefix, one of a fixed
  list of header keywords, optional whitespace, newline.  The matcher below
  implements exactly that shape; `re.IGNORECASE` is the `ci` flag.
-/

namespace Summarizer

/-- Python `\s` (ASCII range): space, tab, newline, carriage return,
form feed, vertical tab. -/
def isPySpace (c : Char) : Bool :=
  c = ' ' || c = '\t' || c = '\n' || c = '\r' || c = '\x0b' || c = '\x0c'

/-- ASCII digit, Python `\d`. -/
def isDigitCh (c : Char) : Bool :=
  '0' ≤ c && c ≤ '9'

/-- Character comparison, case-insensitively when `ci` is set
(`re.IGNORECASE`). -/
def charEq (ci : Bool) (a b : Char) : Bool :=
  if ci then a.toLower = b.toLower else a = b

/-- Consume a literal keyword from the front of the input, returning the
rest on success. -/
def stripKeyword (ci : Bool) : List Char → List Char → Option (List Char)
  | [], cs => some cs
  | _ :: _, [] => none
  | k :: ks, c :: cs => if charEq ci k c then stripKeyword ci ks cs else none

/-- Drop leading whitespace (`\s*` in front of a non-whitespace element). -/
def skipWs : List Char → List Char
  | [] => []
  | c :: cs => if isPySpace c then skipWs cs else c :: cs

/-- `\s*\n`: scan whitespace until a newline is found. -/
def wsThenNewline : List Char → Bool
  | [] => false
  | c :: cs => if c = '\n' then true else if isPySpace c then wsThenNewline cs else false

/-- Try the keyword alternatives of a header pattern; each must be followed
by `\s*\n`. -/
def tryKeywordsTail (ci : Bool) (kws : List (List Char)) (cs : List Char) : Bool :=
  kws.any fun kw =>
    match stripKeyword ci kw cs with
    | some rest => wsThenNewline rest
    | none => false

/-- `\s+` followed by a continuation: at least one whitespace character,
then the continuation at the first non-whitespace position. -/
def wsPlusThen (check : List Char → Bool) : List Char → Bool
  | [] => false
  | c :: cs => isPySpace c && check (skipWs cs)

/-- The numeric-prefix group: `1\.?\s+` when `onlyOne`, else `\d+\.?\s+`,
followed by a keyword and `\s*\n`. -/
def numGroupThen (ci onlyOne : Bool) (kws : List (List Char)) (cs : List Char) : Bool :=
  let ds := cs.takeWhile isDigitCh
  let rest := cs.dropWhile isDigitCh
  if ds = [] then false
  else if onlyOne && ds ≠ ['1'] then false
  else
    match rest with
    | '.' :: rest2 =>
        wsPlusThen (tryKeywordsTail ci kws) rest2 || wsPlusThen (tryKeywordsTail ci kws) rest
    | _ => wsPlusThen (tryKeywordsTail ci kws) rest

/-- One header pattern of the module: `\n\s*(numeric prefix)?(keywords)\s*\n`.
`numPfx = none` means no numeric-prefix group; `some true` is `(?:1\.?\s+)?`;
`some false` is `(?:\d+\.?\s+)?`.  `ci` is `re.IGNORECASE`. -/
structure HeaderPattern where
  numPfx : Option Bool
  ci : Bool
  keywords : List String
deriving DecidableEq

/-- Does the pattern match starting exactly at the head of `cs`? -/
def matchHeaderAt (pat : HeaderPattern) : List Char → Bool
  | '\n' :: rest =>
    let r := skipWs rest
    let kws := pat.keywords.map String.data
    tryKeywordsTail pat.ci kws r ||
      (match pat.numPfx with
       | none => false
       | some onlyOne => numGroupThen pat.ci onlyOne kws r)
  | _ => false

/-- Position of the leftmost match (the start of `re.finditer`'s first
match), scanning from index `i`. -/
def firstMatchFrom (pat : HeaderPattern) : List Char → Nat → Option Nat
  | [], _ => none
  | c :: cs, i =>
    if matchHeaderAt pat (c :: cs) then some i else firstMatchFrom pat cs (i + 1)

/-- Start of the first match of `pat` in `cs`, if any. -/
def firstMatchPos (pat : HeaderPattern) (cs : List Char) : Option Nat :=
  firstMatchFrom pat cs 0

/-- The `section_patterns` table of `detect_sections`, in source order.
The trailing `S?` of `EXPERIMENTS?` is expanded into its two alternatives. -/
def section_patterns : List (HeaderPattern × String) :=
  [ ({ numPfx := some true, ci := true, keywords := ["INTRODUCTION", "Introduction"] },
      "introduction"),
    ({ numPfx := some false, ci := true,
       keywords := ["RELATED WORK", "Related Work", "Background"] }, "related_work"),
    ({ numPfx := some false, ci := true,
       keywords := ["METHODOLOGY", "Methodology", "Methods", "Approach"] }, "methodology"),
    ({ numPfx := some false, ci := true,
       keywords := ["EXPERIMENTS", "EXPERIMENT", "Experiments", "Experiment",
                    "Results", "Evaluation"] }, "results"),
    ({ numPfx := some false, ci := true, keywords := ["DISCUSSION", "Discussion"] },
      "discussion"),
    ({ numPfx := some false, ci := true,
       keywords := ["CONCLUSION", "Conclusion", "Conclusions"] }, "conclusion"),
    ({ numPfx := none, ci := true, keywords := ["REFERENCES", "References"] },
      "references") ]

/-- The `positions` list of `detect_sections` before sorting: for each rule
with at least one match, the start of its first match, paired with the
section name. -/
def rawPositions (text : String) : List (Nat × String) :=
  section_patterns.filterMap fun pn =>
    (firstMatchPos pn.1 text.data).map fun i => (i, pn.2)

/-- The order `positions.sort()` uses: lexicographic on `(start, name)`. -/
def posR (x y : Nat × String) : Prop :=
  x.1 < y.1 ∨ (x.1 = y.1 ∧ x.2 ≤ y.2)

instance : DecidableRel posR := fun x y => by
  unfold posR; infer_instance

instance : IsTotal (Nat × String) posR := by
  constructor
  intro x y
  rcases Nat.lt_trichotomy x.1 y.1 with h | h | h
  · exact Or.inl (Or.inl h)
  · rcases le_total x.2 y.2 with h2 | h2
    · exact Or.inl (Or.inr ⟨h, h2⟩)
    · exact Or.inr (Or.inr ⟨h.symm, h2⟩)
  · exact Or.inr (Or.inl h)

instance : IsTrans (Nat × String) posR := by
  constructor
  intro x y z hxy hyz
  rcases hxy with h1 | ⟨e1, l1⟩
  · rcases hyz with h2 | ⟨e2, _⟩
    · exact Or.inl (h1.trans h2)
    · exact Or.inl (e2 ▸ h1)
  · rcases hyz with h2 | ⟨e2, l2⟩
    · exact Or.inl (e1 ▸ h2)
    · exact Or.inr ⟨e1.trans e2, le_trans l1 l2⟩

/-- `positions.sort()`. -/
def sortPositions (l : List (Nat × String)) : List (Nat × String) :=
  List.insertionSort posR l

/-- Python `text[start:end]` on the character list. -/
def slice (cs : List Char) (s e : Nat) : List Char :=
  (cs.drop s).take (e - s)

/-- Python `str.strip()`: drop leading and trailing whitespace. -/
def pyStrip (cs : List Char) : List Char :=
  ((cs.dropWhile isPySpace).reverse.dropWhile isPySpace).reverse

/-- The extraction loop of `detect_sections`: each section's span runs from
its start to the next section's start (or the end of text). -/
def section_spans (total : Nat) : List (Nat × String) → List (String × Nat × Nat)
  | [] => []
  | (p, name) :: rest =>
    let e := match rest with
      | [] => total
      | (q, _) :: _ => q
    (name, p, e) :: section_spans total rest

/-- `detect_sections`: find the first match of each rule, sort by position,
and cut the text into stripped spans, one per matched rule, keyed by the
section name (the Python dict, as an insertion-ordered association list). -/
def detect_sections (text : String) : List (String × String) :=
  (section_spans text.data.length (sortPositions (rawPositions text))).map
    fun sp => (sp.1, String.mk (pyStrip (slice text.data sp.2.1 sp.2.2)))

/-- The case-sensitive pattern `\n\s*(?:REFERENCES|References)\s*\n` used by
the `re.split` that removes the references section (note: unlike
`detect_sections`, no `re.IGNORECASE`). -/
def refSplitPattern : HeaderPattern :=
  { numPfx := none, ci := false, keywords := ["REFERENCES", "References"] }

/-- `re.split(r"\n\s*(?:REFERENCES|References)\s*\n", full_text, maxsplit=1)[0]`:
everything before the first match of the case-sensitive references header, or
the whole text when there is none. -/
def strip_references (text : String) : String :=
  match firstMatchPos refSplitPattern text.data with
  | some i => String.mk (text.data.take i)
  | none => text

/-! ## Chunker (`chunk_text`) -/

/-- Split a character list on a two-character separator `a b`, Python
`str.split` style: non-overlapping, left to right, keeping empty pieces,
and `[""]` on empty input.  Both separators of the module (`"\n\n"` and
`". "`) have exactly two characters. -/
def splitOn2 (a b : Char) : List Char → List (List Char)
  | [] => [[]]
  | [c] => [[c]]
  | c :: d :: cs =>
    if c = a ∧ d = b then [] :: splitOn2 a b cs
    else
      match splitOn2 a b (d :: cs) with
      | [] => [[c]]
      | l :: ls => (c :: l) :: ls

/-- `text.split("\n\n")`. -/
def splitParagraphs (text : String) : List String :=
  (splitOn2 '\n' '\n' text.data).map String.mk

/-- `para.split(". ")`. -/
def splitSentences (para : String) : List String :=
  (splitOn2 '.' ' ' para.data).map String.mk

/-- The sentence-level inner loop of `chunk_text`, entered when a single
paragraph alone exceeds the budget.  State is `(chunks, current_chunk)`. -/
def sentenceLoop (count : String → Nat) (maxTokens : Nat) :
    List String → List String → String → List String × String
  | [], chunks, cc => (chunks, cc)
  | s :: rest, chunks, cc =>
    if count (cc ++ s) > maxTokens then
      if cc ≠ "" then sentenceLoop count maxTokens rest (chunks ++ [cc]) s
      else sentenceLoop count maxTokens rest chunks s
    else sentenceLoop count maxTokens rest chunks (cc ++ s ++ ". ")

/-- The paragraph-level loop of `chunk_text`. -/
def paraLoop (count : String → Nat) (maxTokens : Nat) :
    List String → List String → String → List String × String
  | [], chunks, cc => (chunks, cc)
  | para :: rest, chunks, cc =>
    let potential := if cc ≠ "" then cc ++ "\n\n" ++ para else para
    if count potential > maxTokens then
      if cc ≠ "" then paraLoop count maxTokens rest (chunks ++ [cc]) para
      else
        let r := sentenceLoop count maxTokens (splitSentences para) chunks cc
        paraLoop count maxTokens rest r.1 r.2
    else paraLoop count maxTokens rest chunks potential

/-- `chunk_text(text, max_tokens)`, parameterized by the tokenizer. -/
def chunk_text (count : String → Nat) (text : String) (maxTokens : Nat) : List String :=
  let r := paraLoop count maxTokens (splitParagraphs text) [] ""
  if r.2 ≠ "" then r.1 ++ [r.2] else r.1

/-! ## Generation collaborators and the orchestrator -/

/-- `paper` metadata used by the summarizer (fields of the paper dict the
module reads). -/
structure Paper where
  title : String
  authors : List String
  abstract : String
deriving DecidableEq

/-- Python `chunk[:500]`. -/
def take500 (s : String) : String :=
  String.mk (s.data.take 500)

/-- `"\n\n".join(l)`. -/
def joinSep (sep : String) : List String → String
  | [] => ""
  | [s] => s
  | s :: rest => s ++ sep ++ joinSep sep rest

/-- The Anthropic client, abstracted: one fallible oracle per generation
call site, each given the data the source builds its prompt from.
`Except.error` models a raised exception in `messages.create`. -/
structure LLMClient where
  singleShot : Paper → String → Except String String
  chunkCall : String → Nat → Nat → String → Except String String
  finalCall : Paper → List String → Except String String

/-- `summarize_text_chunk(chunk, chunk_num, total_chunks, paper_title)`:
no client → truncated excerpt; generation success → its text; generation
failure → truncated excerpt. -/
def summarize_text_chunk (client : Option LLMClient) (chunk : String)
    (chunkNum totalChunks : Nat) (paperTitle : String) : String :=
  match client with
  | none => take500 chunk
  | some cl =>
    match cl.chunkCall chunk chunkNum totalChunks paperTitle with
    | .ok s => s
    | .error _ => take500 chunk

/-- `create_final_summary(paper, section_summaries)`: no client or failed
generation → the chunk summaries joined verbatim. -/
def create_final_summary (client : Option LLMClient) (paper : Paper)
    (summaries : List String) : String :=
  match client with
  | none => joinSep "\n\n" summaries
  | some cl =>
    match cl.finalCall paper summaries with
    | .ok s => s
    | .error _ => joinSep "\n\n" summaries

/-- The `for i, chunk in enumerate(chunks)` loop of the hierarchical path:
1-based chunk numbers against a fixed total. -/
def chunkSummariesAux (client : Option LLMClient) (title : String) (total : Nat) :
    Nat → List String → List String
  | _, [] => []
  | i, c :: rest =>
    summarize_text_chunk client c i total title :: chunkSummariesAux client title total (i + 1) rest

/-- All chunk summaries, in order. -/
def chunkSummaries (client : Option LLMClient) (title : String)
    (chunks : List String) : List String :=
  chunkSummariesAux client title chunks.length 1 chunks

/-- `ResearchPaperContent` (from `src/structs.py`) as populated by
`summarize_paper_full_text`; figures and tables are placeholder empty
lists, `references` keeps the dict's `.get("references", [])` union type
as an `Option`. -/
structure ResearchPaperContent where
  sections : List String
  figures : List String
  tables : List String
  abstract : String
  introduction : String
  methods : String
  results : String
  discussion : String
  conclusion : String
  references : Option String
deriving DecidableEq

/-- Build the `content` record from the detected sections, mirroring the
dict literal of the source (`sections.get(name, default)`). -/
def buildContent (sections : List (String × String)) : ResearchPaperContent :=
  { sections := sections.map Prod.fst
    figures := []
    tables := []
    abstract := (sections.lookup "abstract").getD ""
    introduction := (sections.lookup "introduction").getD ""
    methods := (sections.lookup "methods").getD ""
    results := (sections.lookup "results").getD ""
    discussion := (sections.lookup "discussion").getD ""
    conclusion := (sections.lookup "conclusion").getD ""
    references := sections.lookup "references" }

/-- Which code path produced the result (rendered into the `"method"`
string of the returned dict by `MethodTag.render`). -/
inductive MethodTag
  | abstract_only
  | full_text_single_pass
  | hierarchical (n : Nat)
deriving DecidableEq

/-- The `"method"` strings the source writes. -/
def MethodTag.render : MethodTag → String
  | .abstract_only => "abstract_only"
  | .full_text_single_pass => "full_text_single_pass"
  | .hierarchical n => "hierarchical_" ++ toString n ++ "_chunks"

/-- The dict returned by `summarize_paper_full_text`: `content` is `none`
exactly when the `"content"` key is absent. -/
structure SummaryResult where
  summary : String
  method : String
  content : Option ResearchPaperContent
deriving DecidableEq

/-- `SummaryResult` plus observations of the run: the structured method
tag, and whether `chunk_text` was invoked. -/
structure SummarizeTrace where
  result : SummaryResult
  tag : MethodTag
  chunkerCalled : Bool
deriving DecidableEq

/-- The hierarchical tail of `summarize_paper_full_text` (from
`chunks = self.chunk_text(...)` to the final return). -/
def hierarchicalTail (count : String → Nat) (client : Option LLMClient)
    (paper : Paper) (textNoRefs : String) (content : ResearchPaperContent) :
    SummarizeTrace :=
  let chunks := chunk_text count textNoRefs 15000
  let summaries := chunkSummaries client paper.title chunks
  let finalSummary := create_final_summary client paper summaries
  { result :=
      { summary := finalSummary
        method := (MethodTag.hierarchical chunks.length).render
        content := some content }
    tag := .hierarchical chunks.length
    chunkerCalled := true }

/-- `summarize_paper_full_text(paper, pdf_path)` with its run observations.
`extractPdf` is the outcome of `extract_text_from_pdf` (an external PDF
parser): `none` models the `None` returned on an extraction error.  The
Python truthiness test `if not full_text` also sends the empty string to
the abstract-only fallback. -/
def summarize_paper_full_text_trace (count : String → Nat)
    (client : Option LLMClient) (extractPdf : String → Option String)
    (paper : Paper) (pdfPath : Option String) : SummarizeTrace :=
  match pdfPath with
  | none =>
    { result := { summary := paper.abstract, method := "abstract_only", content := none }
      tag := .abstract_only, chunkerCalled := false }
  | some p =>
    match extractPdf p with
    | none =>
      { result := { summary := paper.abstract, method := "abstract_only", content := none }
        tag := .abstract_only, chunkerCalled := false }
    | some fullText =>
      if fullText = "" then
        { result := { summary := paper.abstract, method := "abstract_only", content := none }
          tag := .abstract_only, chunkerCalled := false }
      else
        let content := buildContent (detect_sections fullText)
        let textNoRefs := strip_references fullText
        let tokenCount := count textNoRefs
        if tokenCount < 50000 then
          match client with
          | none =>
            { result := { summary := textNoRefs, method := "abstract_only",
                          content := some content }
              tag := .abstract_only, chunkerCalled := false }
          | some cl =>
            match cl.singleShot paper textNoRefs with
            | .ok s =>
              { result := { summary := s, method := "full_text_single_pass",
                            content := some content }
                tag := .full_text_single_pass, chunkerCalled := false }
            | .error _ => hierarchicalTail count client paper textNoRefs content
        else hierarchicalTail count client paper textNoRefs content

/-- The dict `summarize_paper_full_text` returns. -/
def summarize_paper_full_text (count : String → Nat) (client : Option LLMClient)
    (extractPdf : String → Option String) (paper : Paper)
    (pdfPath : Option String) : SummaryResult :=
  (summarize_paper_full_text_trace count client extractPdf paper pdfPath).result

/-- The source text that was actually extracted, after the module's two
truthiness gates (`if not pdf_path`, `if not full_text`). -/
def extractedText (extractPdf : String → Option String)
    (pdfPath : Option String) : Option String :=
  match pdfPath with
  | none => none
  | some p =>
    match extractPdf p with
    | none => none
    | some t => if t = "" then none else some t

/-! ## Shared concrete instances for witnesses and counterexamples -/

/-- A paper with an abstract distinct from any extracted text used below. -/
def cePaper : Paper :=
  { title := "T", authors := ["A"], abstract := "ABS" }

/-- A client whose every generation call raises. -/
def failingClient : LLMClient :=
  { singleShot := fun _ _ => .error "overload"
    chunkCall := fun _ _ _ _ => .error "overload"
    finalCall := fun _ _ => .error "overload" }

/-- A client that fails exactly on chunk number 3. -/
def chunk3FailClient : LLMClient :=
  { singleShot := fun _ _ => .ok "single"
    chunkCall := fun _ i _ _ => if i = 3 then .error "quota" else .ok ("sum" ++ toString i)
    finalCall := fun _ l => .ok (joinSep " ~ " l) }

/-! ## C9: the chunker never emits empty chunks -/

theorem sentenceLoop_ne_empty (count : String → Nat) (maxTokens : Nat) :
    ∀ (ss chunks : List String) (cc : String),
      (∀ x ∈ chunks, x ≠ "") →
      ∀ x ∈ (sentenceLoop count maxTokens ss chunks cc).1, x ≠ "" := by
  intro ss
  induction ss with
  | nil => intro chunks cc h; simpa [sentenceLoop] using h
  | cons s rest ih =>
    intro chunks cc h
    by_cases hcc : cc = ""
    · subst hcc
      unfold sentenceLoop
      by_cases hgt : count ("" ++ s) > maxTokens
      · rw [if_pos hgt, if_neg (by simp)]
        exact ih chunks s h
      · rw [if_neg hgt]
        exact ih chunks ("" ++ s ++ ". ") h
    · unfold sentenceLoop
      by_cases hgt : count (cc ++ s) > maxTokens
      · rw [if_pos hgt, if_pos hcc]
        refine ih (chunks ++ [cc]) s ?_
        intro x hx
        rcases List.mem_append.mp hx with hx | hx
        · exact h x hx
        · exact (List.mem_singleton.mp hx) ▸ hcc
      · rw [if_neg hgt]
        exact ih chunks (cc ++ s ++ ". ") h

theorem paraLoop_ne_empty (count : String → Nat) (maxTokens : Nat) :
    ∀ (paras chunks : List String) (cc : String),
      (∀ x ∈ chunks, x ≠ "") →
      ∀ x ∈ (paraLoop count maxTokens paras chunks cc).1, x ≠ "" := by
  intro paras
  induction paras with
  | nil => intro chunks cc h; simpa [paraLoop] using h
  | cons para rest ih =>
    intro chunks cc h
    by_cases hcc : cc = ""
    · subst hcc
      simp only [paraLoop]
      rw [if_neg (show ¬(("" : String) ≠ "") by simp)]
      by_cases hgt : count para > maxTokens
      · rw [if_pos hgt, if_neg (by simp)]
        exact ih _ _ (sentenceLoop_ne_empty count maxTokens (splitSentences para) chunks "" h)
      · rw [if_neg hgt]
        exact ih chunks para h
    · simp only [paraLoop]
      rw [if_pos hcc]
      by_cases hgt : count (cc ++ "\n\n" ++ para) > maxTokens
      · rw [if_pos hgt, if_pos hcc]
        refine ih (chunks ++ [cc]) para ?_
        intro x hx
        rcases List.mem_append.mp hx with hx | hx
        · exact h x hx
        · exact (List.mem_singleton.mp hx) ▸ hcc
      · rw [if_neg hgt]
        exact ih chunks (cc ++ "\n\n" ++ para) h

/-- Claim C9: `chunk_text` never returns an empty-string chunk, and on the
empty string it returns the empty list (for every tokenizer and budget). -/
theorem chunk_text_no_empty_chunks :
    ∀ (count : String → Nat) (text : String) (maxTokens : Nat),
      (∀ c ∈ chunk_text count text maxTokens, c ≠ "") ∧
      chunk_text count "" maxTokens = [] := by
  intro count text maxTokens
  constructor
  · intro c hc
    unfold chunk_text at hc
    set r := paraLoop count maxTokens (splitParagraphs text) [] "" with hr
    by_cases h2 : r.2 = ""
    · simp only [h2, ne_eq, not_true_eq_false, reduceIte, ite_false] at hc
      exact paraLoop_ne_empty count maxTokens (splitParagraphs text) [] ""
        (by intro x hx; simp at hx) c (by rw [← hr]; exact hc)
    · simp only [h2, ne_eq, not_false_eq_true, reduceIte, ite_true] at hc
      rcases List.mem_append.mp hc with hc | hc
      · exact paraLoop_ne_empty count maxTokens (splitParagraphs text) [] ""
          (by intro x hx; simp at hx) c (by rw [← hr]; exact hc)
      · exact (List.mem_singleton.mp hc) ▸ h2
  · have hsplit : splitParagraphs "" = [""] := rfl
    unfold chunk_text
    rw [hsplit]
    unfold paraLoop
    have happ : ("" : String) ++ "" = "" := rfl
    by_cases hgt : count "" > maxTokens
    · simp only [ne_eq, not_true_eq_false, reduceIte, hgt, ite_true]
      unfold sentenceLoop
      have hsent : splitSentences "" = [""] := rfl
      rw [hsent]
      unfold sentenceLoop
      simp only [happ, hgt, ne_eq, not_true_eq_false, reduceIte, ite_true]
      unfold paraLoop
      rfl
    · simp only [ne_eq, not_true_eq_false, reduceIte, hgt, ite_false]
      unfold paraLoop
      rfl

/-- Claim C9, witness: a concrete run of the no-empty-chunk guarantee. -/
theorem chunk_text_no_empty_chunks_witness :
    ("hi" ∈ chunk_text String.length "hi" 5) ∧ "hi" ≠ "" :=
  ⟨by decide, (chunk_text_no_empty_chunks String.length "hi" 5).1 "hi" (by decide)⟩

/-! ## C8: chunk-level generation failure degrades to a truncated excerpt -/

theorem chunkSummariesAux_get? (client : Option LLMClient) (title : String) (total : Nat) :
    ∀ (chunks : List String) (i j : Nat),
      (chunkSummariesAux client title total i chunks).get? j
        = (chunks.get? j).map fun c => summarize_text_chunk client c (i + j) total title := by
  intro chunks
  induction chunks with
  | nil => intro i j; simp [chunkSummariesAux]
  | cons c rest ih =>
    intro i j
    cases j with
    | zero => simp [chunkSummariesAux]
    | succ j' =>
      simp only [chunkSummariesAux, List.get?]
      rw [ih (i + 1) j', show i + 1 + j' = i + (j' + 1) by omega]

/-- Claim C8: if the generation call for a chunk fails, `summarize_text_chunk`
returns the first 500 characters of the raw chunk instead of raising; the
hierarchical loop therefore yields one summary per chunk, each chunk's entry
depending only on its own call's outcome. -/
theorem chunk_failure_degrades_to_excerpt :
    (∀ (cl : LLMClient) (chunk title : String) (i total : Nat) (err : String),
        cl.chunkCall chunk i total title = .error err →
        summarize_text_chunk (some cl) chunk i total title = take500 chunk)
    ∧ ∀ (client : Option LLMClient) (title : String) (chunks : List String),
        (chunkSummaries client title chunks).length = chunks.length
        ∧ ∀ j, (chunkSummaries client title chunks).get? j
            = (chunks.get? j).map fun c =>
                summarize_text_chunk client c (j + 1) chunks.length title := by
  constructor
  · intro cl chunk title i total err herr
    simp [summarize_text_chunk, herr]
  · intro client title chunks
    have hget : ∀ j, (chunkSummaries client title chunks).get? j
        = (chunks.get? j).map fun c =>
            summarize_text_chunk client c (j + 1) chunks.length title := by
      intro j
      unfold chunkSummaries
      rw [chunkSummariesAux_get? client title chunks.length chunks 1 j,
        show 1 + j = j + 1 by omega]
    constructor
    · have hlen : ∀ (i : Nat) (l : List String),
          (chunkSummariesAux client title chunks.length i l).length = l.length := by
        intro i l
        induction l generalizing i with
        | nil => rfl
        | cons c rest ih => simp [chunkSummariesAux, ih]
      exact hlen 1 chunks
    · exact hget

/-- Claim C8, witness: chunk 3 of 5 fails, its summary is the truncated
excerpt, and the other chunks' summaries are still model-generated. -/
theorem chunk_failure_degrades_to_excerpt_witness :
    chunk3FailClient.chunkCall "c3" 3 5 "T" = .error "quota"
    ∧ summarize_text_chunk (some chunk3FailClient) "c3" 3 5 "T" = take500 "c3"
    ∧ chunkSummaries (some chunk3FailClient) "T" ["c1", "c2", "c3", "c4", "c5"]
        = ["sum1", "sum2", "c3", "sum4", "sum5"] :=
  ⟨rfl,
   chunk_failure_degrades_to_excerpt.1 chunk3FailClient "c3" "T" 3 5 "quota" rfl,
   by decide⟩

/-! ## C10: presence of the "content" key -/

/-- Claim C10: the result carries section content except on the two early
abstract-only returns (no PDF path, or falsy extraction result); on those
paths the result is exactly the abstract plus the `abstract_only` tag. -/
theorem content_key_presence :
    ∀ (count : String → Nat) (client : Option LLMClient)
      (extractPdf : String → Option String) (paper : Paper) (pdfPath : Option String),
      ((summarize_paper_full_text count client extractPdf paper pdfPath).content = none
        ↔ extractedText extractPdf pdfPath = none)
      ∧ (extractedText extractPdf pdfPath = none →
          summarize_paper_full_text count client extractPdf paper pdfPath =
            { summary := paper.abstract, method := "abstract_only", content := none }) := by
  intro count client extractPdf paper pdfPath
  cases pdfPath with
  | none =>
    simp [summarize_paper_full_text, summarize_paper_full_text_trace, extractedText]
  | some p =>
    cases hE : extractPdf p with
    | none =>
      simp [summarize_paper_full_text, summarize_paper_full_text_trace, extractedText, hE]
    | some t =>
      by_cases ht : t = ""
      · simp [summarize_paper_full_text, summarize_paper_full_text_trace, extractedText,
          hE, ht]
      · by_cases hcnt : count (strip_references t) < 50000
        · cases client with
          | none =>
            simp [summarize_paper_full_text, summarize_paper_full_text_trace,
              extractedText, hE, ht, hcnt]
          | some cl =>
            cases hS : cl.singleShot paper (strip_references t) with
            | ok s =>
              simp [summarize_paper_full_text, summarize_paper_full_text_trace,
                extractedText, hE, ht, hcnt, hS]
            | error e =>
              simp [summarize_paper_full_text, summarize_paper_full_text_trace,
                extractedText, hE, ht, hcnt, hS, hierarchicalTail]
        · simp [summarize_paper_full_text, summarize_paper_full_text_trace,
            extractedText, hE, ht, hcnt, hierarchicalTail]

/-- Claim C10, witness: on a failing extraction the result is the bare
abstract-only dict. -/
theorem content_key_presence_witness :
    extractedText (fun _ => none) (some "p") = none
    ∧ summarize_paper_full_text String.length none (fun _ => none) cePaper (some "p")
        = { summary := cePaper.abstract, method := "abstract_only", content := none } :=
  ⟨rfl,
   (content_key_presence String.length none (fun _ => none) cePaper (some "p")).2 rfl⟩

/-! ## C1: single-pass generation failure does NOT propagate (corrected) -/

/-- Claim C1, counterexample: the reference-stripped text counts below the
threshold, the single-pass generation call fails, and yet the call returns a
normal hierarchical fallback result — the failure is swallowed, not
propagated, contradicting the claim. -/
theorem single_pass_failure_falls_back_cex :
    String.length (strip_references "tiny text") < 50000
    ∧ failingClient.singleShot cePaper (strip_references "tiny text") = .error "overload"
    ∧ (summarize_paper_full_text_trace String.length (some failingClient)
        (fun _ => some "tiny text") cePaper (some "p")).tag = MethodTag.hierarchical 1
    ∧ (summarize_paper_full_text String.length (some failingClient)
        (fun _ => some "tiny text") cePaper (some "p")).summary = "tiny text" :=
  ⟨by decide, rfl, rfl, rfl⟩

/-- Claim C1, amended: when the single-pass generation call fails on a
below-threshold document, the exception is caught and the orchestrator
falls through to the hierarchical chunking path; the caller receives that
fallback result, not an error. -/
theorem single_pass_failure_falls_back :
    ∀ (count : String → Nat) (cl : LLMClient) (extractPdf : String → Option String)
      (paper : Paper) (pdfPath : Option String) (t err : String),
      extractedText extractPdf pdfPath = some t →
      count (strip_references t) < 50000 →
      cl.singleShot paper (strip_references t) = .error err →
      summarize_paper_full_text_trace count (some cl) extractPdf paper pdfPath
        = hierarchicalTail count (some cl) paper (strip_references t)
            (buildContent (detect_sections t)) := by
  intro count cl extractPdf paper pdfPath t err hx hcnt herr
  cases pdfPath with
  | none => simp [extractedText] at hx
  | some p =>
    cases hE : extractPdf p with
    | none => simp [extractedText, hE] at hx
    | some t0 =>
      by_cases ht : t0 = ""
      · simp [extractedText, hE, ht] at hx
      · have ht0 : t0 = t := by
          simp only [extractedText, hE, ht, if_neg, reduceIte] at hx
          exact Option.some.inj hx
        subst ht0
        simp only [summarize_paper_full_text_trace, hE]
        rw [if_neg ht, if_pos hcnt]
        simp only [herr]

/-- Claim C1 (amended), witness: a concrete below-threshold run with a
failing single-pass call ends in the hierarchical fallback. -/
theorem single_pass_failure_falls_back_witness :
    extractedText (fun _ => some "tiny text") (some "p") = some "tiny text"
    ∧ String.length (strip_references "tiny text") < 50000
    ∧ failingClient.singleShot cePaper (strip_references "tiny text") = .error "overload"
    ∧ summarize_paper_full_text_trace String.length (some failingClient)
        (fun _ => some "tiny text") cePaper (some "p")
        = hierarchicalTail String.length (some failingClient) cePaper
            (strip_references "tiny text")
            (buildContent (detect_sections "tiny text")) :=
  ⟨rfl, by decide, rfl,
   single_pass_failure_falls_back String.length failingClient
     (fun _ => some "tiny text") cePaper (some "p") "tiny text" "overload"
     rfl (by decide) rfl⟩

/-! ## C2: below the threshold the chunker is (usually, not always)
not invoked (corrected) -/

/-- Claim C2, counterexample: a document below the 50,000-token threshold on
which `chunk_text` IS invoked — the single-pass generation call fails and
the orchestrator falls back to chunking. -/
theorem below_threshold_chunker_cex :
    extractedText (fun _ => some "tiny text") (some "p") = some "tiny text"
    ∧ String.length (strip_references "tiny text") < 50000
    ∧ (summarize_paper_full_text_trace String.length (some failingClient)
        (fun _ => some "tiny text") cePaper (some "p")).chunkerCalled = true :=
  ⟨rfl, by decide, rfl⟩

/-- Claim C2, amended: for a document whose reference-stripped token count
is below 50,000, the chunker is not invoked provided the single-pass branch
completes — that is, there is no client, or the single generation call
succeeds.  (If that call fails, the chunker is invoked even below the
threshold.) -/
theorem below_threshold_no_chunker :
    ∀ (count : String → Nat) (client : Option LLMClient)
      (extractPdf : String → Option String) (paper : Paper)
      (pdfPath : Option String) (t : String),
      extractedText extractPdf pdfPath = some t →
      count (strip_references t) < 50000 →
      (client = none ∨ ∃ cl s, client = some cl
        ∧ cl.singleShot paper (strip_references t) = .ok s) →
      (summarize_paper_full_text_trace count client extractPdf paper pdfPath).chunkerCalled
        = false := by
  intro count client extractPdf paper pdfPath t hx hcnt hok
  cases pdfPath with
  | none => simp [extractedText] at hx
  | some p =>
    cases hE : extractPdf p with
    | none => simp [extractedText, hE] at hx
    | some t0 =>
      by_cases ht : t0 = ""
      · simp [extractedText, hE, ht] at hx
      · have ht0 : t0 = t := by
          simp only [extractedText, hE, ht, if_neg, reduceIte] at hx
          exact Option.some.inj hx
        subst ht0
        simp only [summarize_paper_full_text_trace, hE]
        rw [if_neg ht, if_pos hcnt]
        rcases hok with hok | ⟨cl, s, hcl, hs⟩
        · subst hok; rfl
        · subst hcl
          simp only [hs]

/-- Claim C2 (amended), witness: with no client configured, a short
document is handled without invoking the chunker. -/
theorem below_threshold_no_chunker_witness :
    extractedText (fun _ => some "tiny text") (some "p") = some "tiny text"
    ∧ String.length (strip_references "tiny text") < 50000
    ∧ (summarize_paper_full_text_trace String.length none
        (fun _ => some "tiny text") cePaper (some "p")).chunkerCalled = false :=
  ⟨rfl, by decide,
   below_threshold_no_chunker String.length none (fun _ => some "tiny text")
     cePaper (some "p") "tiny text" rfl (by decide) (Or.inl rfl)⟩

/-! ## C3: accuracy of the method tag (corrected) -/

/-- Claim C3, counterexample: source text WAS extracted, yet the result is
tagged `abstract_only` (no client configured on the below-threshold path),
and its summary is the reference-stripped text, not the paper's abstract. -/
theorem method_tag_cex :
    extractedText (fun _ => some "the extracted body") (some "p")
        = some "the extracted body"
    ∧ (summarize_paper_full_text_trace String.length none
        (fun _ => some "the extracted body") cePaper (some "p")).tag
        = MethodTag.abstract_only
    ∧ (summarize_paper_full_text String.length none
        (fun _ => some "the extracted body") cePaper (some "p")).summary
        = "the extracted body"
    ∧ "the extracted body" ≠ cePaper.abstract :=
  ⟨rfl, rfl, rfl, by decide⟩

/-- Claim C3, amended: the method tag reflects the code path, with one
extra `abstract_only` case the claim missed — text extracted, token count
below threshold, but no client configured (then the summary is the
reference-stripped text, not the abstract).  `full_text_single_pass` is
used exactly when the below-threshold single call succeeds, and a
`hierarchical n` tag always carries the exact number of chunks the chunker
produced. -/
theorem method_tag_characterization :
    ∀ (count : String → Nat) (client : Option LLMClient)
      (extractPdf : String → Option String) (paper : Paper) (pdfPath : Option String),
      ((summarize_paper_full_text_trace count client extractPdf paper pdfPath).result.method
          = (summarize_paper_full_text_trace count client extractPdf paper pdfPath).tag.render)
      ∧ ((summarize_paper_full_text_trace count client extractPdf paper pdfPath).tag
            = MethodTag.abstract_only
          ↔ extractedText extractPdf pdfPath = none
            ∨ ∃ t, extractedText extractPdf pdfPath = some t ∧ client = none
                ∧ count (strip_references t) < 50000)
      ∧ (extractedText extractPdf pdfPath = none →
          (summarize_paper_full_text_trace count client extractPdf paper pdfPath).result.summary
            = paper.abstract)
      ∧ (∀ t, extractedText extractPdf pdfPath = some t → client = none →
          count (strip_references t) < 50000 →
          (summarize_paper_full_text_trace count client extractPdf paper pdfPath).result.summary
            = strip_references t)
      ∧ ((summarize_paper_full_text_trace count client extractPdf paper pdfPath).tag
            = MethodTag.full_text_single_pass
          ↔ ∃ t cl s, extractedText extractPdf pdfPath = some t ∧ client = some cl
              ∧ count (strip_references t) < 50000
              ∧ cl.singleShot paper (strip_references t) = .ok s)
      ∧ (∀ n, (summarize_paper_full_text_trace count client extractPdf paper pdfPath).tag
            = MethodTag.hierarchical n →
          ∃ t, extractedText extractPdf pdfPath = some t
            ∧ n = (chunk_text count (strip_references t) 15000).length
            ∧ (summarize_paper_full_text_trace count client extractPdf paper pdfPath).chunkerCalled
                = true) := by
  intro count client extractPdf paper pdfPath
  cases pdfPath with
  | none =>
    simp [summarize_paper_full_text_trace, extractedText, MethodTag.render]
  | some p =>
    cases hE : extractPdf p with
    | none =>
      simp [summarize_paper_full_text_trace, extractedText, hE, MethodTag.render]
    | some t0 =>
      by_cases ht : t0 = ""
      · simp [summarize_paper_full_text_trace, extractedText, hE, ht, MethodTag.render]
      · by_cases hcnt : count (strip_references t0) < 50000
        · cases client with
          | none =>
            simp only [summarize_paper_full_text_trace, hE]
            rw [if_neg ht, if_pos hcnt]
            simp [extractedText, hE, ht, hcnt, MethodTag.render]
          | some cl =>
            cases hS : cl.singleShot paper (strip_references t0) with
            | ok s =>
              simp only [summarize_paper_full_text_trace, hE]
              rw [if_neg ht, if_pos hcnt]
              simp [extractedText, hE, ht, hcnt, hS, MethodTag.render]
            | error e =>
              simp only [summarize_paper_full_text_trace, hE]
              rw [if_neg ht, if_pos hcnt]
              simp [extractedText, hE, ht, hcnt, hS, MethodTag.render, hierarchicalTail]
        · simp only [summarize_paper_full_text_trace, hE]
          rw [if_neg ht, if_neg hcnt]
          simp [extractedText, hE, ht, hcnt, MethodTag.render, hierarchicalTail]

/-- Claim C3 (amended), witness: the characterization applied to the
extracted-text, no-client, below-threshold run. -/
theorem method_tag_characterization_witness :
    extractedText (fun _ => some "the extracted body") (some "p")
        = some "the extracted body"
    ∧ String.length (strip_references "the extracted body") < 50000
    ∧ (summarize_paper_full_text_trace String.length none
        (fun _ => some "the extracted body") cePaper (some "p")).result.summary
        = strip_references "the extracted body" :=
  ⟨rfl, by decide,
   (method_tag_characterization String.length none (fun _ => some "the extracted body")
       cePaper (some "p")).2.2.2.1 "the extracted body" rfl rfl (by decide)⟩

/-! ## C6: the references section and the counted text (corrected) -/

/-- Claim C6, counterexample: a lowercase `references` header is detected
as a section by `detect_sections` (case-insensitive matching), but the
case-sensitive `re.split` used before token counting does not match it, so
the counted/summarized text still contains the whole references section. -/
theorem references_not_always_stripped_cex :
    detect_sections "A\nreferences\nB" = [("references", "references\nB")]
    ∧ strip_references "A\nreferences\nB" = "A\nreferences\nB"
    ∧ (summarize_paper_full_text_trace String.length none
        (fun _ => some "A\nreferences\nB") cePaper (some "p")).result.summary
        = "A\nreferences\nB" := by
  refine ⟨by decide, rfl, rfl⟩

/-- Claim C6, amended: the counted text excludes the references section
only when the header matches `REFERENCES` or `References` case-sensitively
(the `re.split` has no `IGNORECASE` flag, unlike detection): if that
pattern first matches at position `i`, the text used for counting and
summarization is exactly the prefix of the raw text before `i`. -/
theorem references_stripped_when_case_matches :
    ∀ (text : String) (i : Nat),
      firstMatchPos refSplitPattern text.data = some i →
      (strip_references text).data = text.data.take i := by
  intro text i h
  unfold strip_references
  rw [h]

/-- Claim C6 (amended), witness: a case-sensitively matching header is
stripped, everything from the header onward excluded. -/
theorem references_stripped_when_case_matches_witness :
    firstMatchPos refSplitPattern ("A\nReferences\nB").data = some 1
    ∧ (strip_references "A\nReferences\nB").data = ("A\nReferences\nB").data.take 1 :=
  ⟨by decide,
   references_stripped_when_case_matches "A\nReferences\nB" 1 (by decide)⟩

/-! ## C4: chunk token budget (corrected) -/

/-- The ways a chunk can relate to the budget: within budget, a whole
paragraph kept unsplit, a single sentence of a paragraph, or a
sentence-accumulator whose within-budget content got a `". "` separator
appended after the budget check. -/
def ChunkOK (count : String → Nat) (maxTokens : Nat) (paras : List String)
    (c : String) : Prop :=
  count c ≤ maxTokens
  ∨ c ∈ paras
  ∨ (∃ p ∈ paras, c ∈ splitSentences p)
  ∨ ∃ x, c = x ++ ". " ∧ count x ≤ maxTokens

theorem sentenceLoop_chunkOK (count : String → Nat) (maxTokens : Nat)
    (paras : List String) (p : String) (hp : p ∈ paras) :
    ∀ (ss chunks : List String) (cc : String),
      (∀ s ∈ ss, s ∈ splitSentences p) →
      (∀ x ∈ chunks, ChunkOK count maxTokens paras x) →
      (cc ≠ "" → ChunkOK count maxTokens paras cc) →
      (∀ x ∈ (sentenceLoop count maxTokens ss chunks cc).1, ChunkOK count maxTokens paras x)
      ∧ ((sentenceLoop count maxTokens ss chunks cc).2 ≠ "" →
          ChunkOK count maxTokens paras (sentenceLoop count maxTokens ss chunks cc).2) := by
  intro ss
  induction ss with
  | nil =>
    intro chunks cc hss hchunks hcc
    exact ⟨hchunks, hcc⟩
  | cons s rest ih =>
    intro chunks cc hss hchunks hcc
    have hsmem : s ∈ splitSentences p := hss s (List.mem_cons_self s rest)
    have hrest : ∀ x ∈ rest, x ∈ splitSentences p :=
      fun x hx => hss x (List.mem_cons_of_mem s hx)
    unfold sentenceLoop
    by_cases hgt : count (cc ++ s) > maxTokens
    · by_cases hccE : cc = ""
      · rw [if_pos hgt, if_neg (by simp [hccE])]
        exact ih chunks s hrest hchunks
          (fun _ => Or.inr (Or.inr (Or.inl ⟨p, hp, hsmem⟩)))
      · rw [if_pos hgt, if_pos hccE]
        refine ih (chunks ++ [cc]) s hrest ?_
          (fun _ => Or.inr (Or.inr (Or.inl ⟨p, hp, hsmem⟩)))
        intro x hx
        rcases List.mem_append.mp hx with hx | hx
        · exact hchunks x hx
        · exact (List.mem_singleton.mp hx) ▸ hcc hccE
    · rw [if_neg hgt]
      exact ih chunks (cc ++ s ++ ". ") hrest hchunks
        (fun _ => Or.inr (Or.inr (Or.inr ⟨cc ++ s, rfl, Nat.le_of_not_lt hgt⟩)))

theorem paraLoop_chunkOK (count : String → Nat) (maxTokens : Nat) (paras : List String) :
    ∀ (rem chunks : List String) (cc : String),
      (∀ q ∈ rem, q ∈ paras) →
      (∀ x ∈ chunks, ChunkOK count maxTokens paras x) →
      (cc ≠ "" → ChunkOK count maxTokens paras cc) →
      (∀ x ∈ (paraLoop count maxTokens rem chunks cc).1, ChunkOK count maxTokens paras x)
      ∧ ((paraLoop count maxTokens rem chunks cc).2 ≠ "" →
          ChunkOK count maxTokens paras (paraLoop count maxTokens rem chunks cc).2) := by
  intro rem
  induction rem with
  | nil =>
    intro chunks cc _ hchunks hcc
    exact ⟨hchunks, hcc⟩
  | cons para rest ih =>
    intro chunks cc hrem hchunks hcc
    have hpmem : para ∈ paras := hrem para (List.mem_cons_self para rest)
    have hrest : ∀ q ∈ rest, q ∈ paras :=
      fun q hq => hrem q (List.mem_cons_of_mem para hq)
    by_cases hccE : cc = ""
    · subst hccE
      simp only [paraLoop]
      rw [if_neg (show ¬(("" : String) ≠ "") by simp)]
      by_cases hgt : count para > maxTokens
      · rw [if_pos hgt, if_neg (by simp)]
        have hsent := sentenceLoop_chunkOK count maxTokens paras para hpmem
          (splitSentences para) chunks "" (fun s hs => hs) hchunks (by simp)
        exact ih _ _ hrest hsent.1 hsent.2
      · rw [if_neg hgt]
        exact ih chunks para hrest hchunks (fun _ => Or.inr (Or.inl hpmem))
    · simp only [paraLoop]
      rw [if_pos hccE]
      by_cases hgt : count (cc ++ "\n\n" ++ para) > maxTokens
      · rw [if_pos hgt, if_pos hccE]
        refine ih (chunks ++ [cc]) para hrest ?_ (fun _ => Or.inr (Or.inl hpmem))
        intro x hx
        rcases List.mem_append.mp hx with hx | hx
        · exact hchunks x hx
        · exact (List.mem_singleton.mp hx) ▸ hcc hccE
      · rw [if_neg hgt]
        exact ih chunks (cc ++ "\n\n" ++ para) hrest hchunks
          (fun _ => Or.inl (Nat.le_of_not_lt hgt))

/-- Claim C4, counterexample: a chunk over the budget that is not a single
sentence — a whole multi-sentence paragraph is flushed unsplit when it
arrives while the accumulator is non-empty, because sentence-splitting only
happens when the accumulator is empty. -/
theorem chunk_budget_cex :
    chunk_text String.length "a\n\nbb. cc. dd" 5 = ["a", "bb. cc. dd"]
    ∧ "bb. cc. dd" ∈ chunk_text String.length "a\n\nbb. cc. dd" 5
    ∧ String.length "bb. cc. dd" > 5
    ∧ splitSentences "bb. cc. dd" ≠ ["bb. cc. dd"] := by
  refine ⟨by decide, by decide, by decide, by decide⟩

/-- Claim C4, amended: every chunk returned by `chunk_text` is within the
token budget, except chunks that are a whole paragraph of the input
returned unsplit, a single sentence of a paragraph, or a sentence
accumulation whose final `". "` separator was appended after the budget
check (so the content before that separator is within budget). -/
theorem chunk_budget_amended :
    ∀ (count : String → Nat) (text : String) (maxTokens : Nat) (c : String),
      c ∈ chunk_text count text maxTokens →
      count c ≤ maxTokens
      ∨ c ∈ splitParagraphs text
      ∨ (∃ p ∈ splitParagraphs text, c ∈ splitSentences p)
      ∨ ∃ x, c = x ++ ". " ∧ count x ≤ maxTokens := by
  intro count text maxTokens c hc
  have h := paraLoop_chunkOK count maxTokens (splitParagraphs text)
    (splitParagraphs text) [] "" (fun q hq => hq) (by simp) (by simp)
  unfold chunk_text at hc
  set r := paraLoop count maxTokens (splitParagraphs text) [] "" with hr
  by_cases h2 : r.2 = ""
  · rw [if_neg (by simpa using h2)] at hc
    exact h.1 c hc
  · rw [if_pos h2] at hc
    rcases List.mem_append.mp hc with hc | hc
    · exact h.1 c hc
    · exact (List.mem_singleton.mp hc) ▸ h.2 h2

/-- Claim C4 (amended), witness: the oversized chunk of the counterexample
falls under the whole-paragraph exception. -/
theorem chunk_budget_amended_witness :
    ("bb. cc. dd" ∈ chunk_text String.length "a\n\nbb. cc. dd" 5)
    ∧ (String.length "bb. cc. dd" ≤ 5
       ∨ "bb. cc. dd" ∈ splitParagraphs "a\n\nbb. cc. dd"
       ∨ (∃ p ∈ splitParagraphs "a\n\nbb. cc. dd", "bb. cc. dd" ∈ splitSentences p)
       ∨ ∃ x, "bb. cc. dd" = x ++ ". " ∧ String.length x ≤ 5) :=
  ⟨by decide,
   chunk_budget_amended String.length "a\n\nbb. cc. dd" 5 "bb. cc. dd" (by decide)⟩

/-! ## C5: concatenating the chunks vs the input text (corrected) -/

theorem mk_append (l1 l2 : List Char) :
    String.mk l1 ++ String.mk l2 = String.mk (l1 ++ l2) := rfl

theorem data_append (a b : String) : (a ++ b).data = a.data ++ b.data := by
  cases a; cases b; rfl

theorem str_append_assoc (a b c : String) : a ++ b ++ c = a ++ (b ++ c) := by
  cases a; cases b; cases c
  rw [mk_append, mk_append, mk_append, mk_append, List.append_assoc]

/-- Character-level intercalation, inverse of `splitOn2`. -/
def joinL (sep : List Char) : List (List Char) → List Char
  | [] => []
  | [l] => l
  | l :: ls => l ++ sep ++ joinL sep ls

theorem splitOn2_ne_nil (a b : Char) (cs : List Char) : splitOn2 a b cs ≠ [] := by
  match cs with
  | [] => simp [splitOn2]
  | [c] => simp [splitOn2]
  | c :: d :: cs =>
    unfold splitOn2
    by_cases h : c = a ∧ d = b
    · rw [if_pos h]; simp
    · rw [if_neg h]
      cases hm : splitOn2 a b (d :: cs) with
      | nil => simp
      | cons l ls => simp

theorem splitOn2_join (a b : Char) : ∀ (cs : List Char),
    joinL [a, b] (splitOn2 a b cs) = cs := by
  have key : ∀ (n : Nat) (cs : List Char), cs.length ≤ n →
      joinL [a, b] (splitOn2 a b cs) = cs := by
    intro n
    induction n with
    | zero =>
      intro cs h
      have : cs = [] := List.length_eq_zero.mp (Nat.le_zero.mp h)
      subst this
      rfl
    | succ n ih =>
      intro cs h
      match cs with
      | [] => rfl
      | [c] => rfl
      | c :: d :: cs' =>
        unfold splitOn2
        by_cases hab : c = a ∧ d = b
        · rw [if_pos hab]
          obtain ⟨rfl, rfl⟩ := hab
          cases hm : splitOn2 c d cs' with
          | nil => exact absurd hm (splitOn2_ne_nil c d cs')
          | cons l ls =>
            have ihcs : joinL [c, d] (splitOn2 c d cs') = cs' := by
              refine ih cs' ?_
              simp at h
              omega
            rw [hm] at ihcs
            show [] ++ [c, d] ++ joinL [c, d] (l :: ls) = c :: d :: cs'
            rw [ihcs]
            rfl
        · rw [if_neg hab]
          have ihtail : joinL [a, b] (splitOn2 a b (d :: cs')) = d :: cs' := by
            refine ih (d :: cs') ?_
            simp at h ⊢
            omega
          cases hm : splitOn2 a b (d :: cs') with
          | nil => exact absurd hm (splitOn2_ne_nil a b (d :: cs'))
          | cons l ls =>
            rw [hm] at ihtail
            cases ls with
            | nil =>
              show c :: l = c :: d :: cs'
              have : l = d :: cs' := ihtail
              rw [this]
            | cons l2 ls' =>
              show (c :: l) ++ [a, b] ++ joinL [a, b] (l2 :: ls') = c :: d :: cs'
              have : l ++ [a, b] ++ joinL [a, b] (l2 :: ls') = d :: cs' := ihtail
              rw [List.cons_append, List.cons_append, this]
  intro cs
  exact key cs.length cs le_rfl

theorem joinSep_mk (sep : List Char) : ∀ (ls : List (List Char)),
    joinSep (String.mk sep) (ls.map String.mk) = String.mk (joinL sep ls) := by
  intro ls
  match ls with
  | [] => rfl
  | [l] => rfl
  | l :: l2 :: ls' =>
    show String.mk l ++ String.mk sep ++ joinSep (String.mk sep) ((l2 :: ls').map String.mk)
      = String.mk (l ++ sep ++ joinL sep (l2 :: ls'))
    rw [joinSep_mk sep (l2 :: ls'), mk_append, mk_append]

/-- Joining the paragraph split back with blank lines is the identity. -/
theorem splitParagraphs_join (text : String) :
    joinSep "\n\n" (splitParagraphs text) = text := by
  unfold splitParagraphs
  have h1 : ("\n\n" : String) = String.mk ['\n', '\n'] := rfl
  rw [h1, joinSep_mk ['\n', '\n'] (splitOn2 '\n' '\n' text.data),
    splitOn2_join '\n' '\n' text.data]

theorem joinSep_cons_ne (sep x : String) (L : List String) (h : L ≠ []) :
    joinSep sep (x :: L) = x ++ sep ++ joinSep sep L := by
  cases L with
  | nil => exact absurd rfl h
  | cons y ys => rfl

theorem joinSep_merge (sep : String) :
    ∀ (l : List String) (a b : String) (r : List String),
      joinSep sep (l ++ (a ++ sep ++ b) :: r) = joinSep sep (l ++ a :: b :: r) := by
  intro l
  induction l with
  | nil =>
    intro a b r
    cases r with
    | nil =>
      show joinSep sep [a ++ sep ++ b] = joinSep sep [a, b]
      rfl
    | cons y ys =>
      rw [List.nil_append, List.nil_append,
        joinSep_cons_ne sep (a ++ sep ++ b) (y :: ys) (by simp),
        joinSep_cons_ne sep a (b :: y :: ys) (by simp),
        joinSep_cons_ne sep b (y :: ys) (by simp)]
      simp only [str_append_assoc]
  | cons x l ih =>
    intro a b r
    rw [List.cons_append, List.cons_append,
      joinSep_cons_ne sep x (l ++ (a ++ sep ++ b) :: r) (by simp),
      joinSep_cons_ne sep x (l ++ a :: b :: r) (by simp),
      ih a b r]

theorem str_ne_empty_of_data_ne (s : String) (h : s.data ≠ []) : s ≠ "" := by
  intro he
  rw [he] at h
  exact h rfl

theorem paraLoop_join (count : String → Nat) (maxTokens : Nat) :
    ∀ (rem chunks : List String) (cc : String),
      cc ≠ "" →
      (∀ p ∈ rem, p ≠ "" ∧ count p ≤ maxTokens) →
      joinSep "\n\n"
        (if (paraLoop count maxTokens rem chunks cc).2 ≠ ""
          then (paraLoop count maxTokens rem chunks cc).1
            ++ [(paraLoop count maxTokens rem chunks cc).2]
          else (paraLoop count maxTokens rem chunks cc).1)
        = joinSep "\n\n" (chunks ++ cc :: rem) := by
  intro rem
  induction rem with
  | nil =>
    intro chunks cc hcc _
    simp only [paraLoop]
    rw [if_pos hcc]
  | cons para rest ih =>
    intro chunks cc hcc hrem
    have hpara := hrem para (List.mem_cons_self para rest)
    have hrest : ∀ p ∈ rest, p ≠ "" ∧ count p ≤ maxTokens :=
      fun p hp => hrem p (List.mem_cons_of_mem para hp)
    simp only [paraLoop]
    rw [if_pos hcc]
    by_cases hgt : count (cc ++ "\n\n" ++ para) > maxTokens
    · rw [if_pos hgt, if_pos hcc, ih (chunks ++ [cc]) para hpara.1 hrest]
      simp
    · rw [if_neg hgt]
      have hne : cc ++ "\n\n" ++ para ≠ "" := by
        refine str_ne_empty_of_data_ne _ ?_
        rw [data_append, data_append]
        simp
      rw [ih chunks (cc ++ "\n\n" ++ para) hne hrest]
      have := joinSep_merge "\n\n" chunks cc para rest
      exact this

/-- Claim C5, counterexample: when the sentence-splitting path runs,
`". "` separators are dropped between a flushed sentence and its successor
and an extra `". "` is appended, so no reading of "concatenating the chunks
reproduces the input" holds: neither plain concatenation nor re-inserting
the blank-line separators gives the input back. -/
theorem chunk_concat_cex :
    chunk_text String.length "aa. bb. cc" 5 = ["aa. ", "bbcc. "]
    ∧ "aa. " ++ "bbcc. " ≠ "aa. bb. cc"
    ∧ joinSep "\n\n" ["aa. ", "bbcc. "] ≠ "aa. bb. cc" := by
  refine ⟨by decide, by decide, by decide⟩

/-- Claim C5, amended: as long as no paragraph is sentence-split — every
paragraph is non-empty and within the token budget — the chunks are groups
of consecutive paragraphs joined by the inserted blank-line separators, and
re-joining the returned chunks with blank lines reproduces the input text
exactly. -/
theorem chunk_concat_roundtrip :
    ∀ (count : String → Nat) (text : String) (maxTokens : Nat),
      (∀ p ∈ splitParagraphs text, p ≠ "" ∧ count p ≤ maxTokens) →
      joinSep "\n\n" (chunk_text count text maxTokens) = text := by
  intro count text maxTokens h
  unfold chunk_text
  cases hp : splitParagraphs text with
  | nil =>
    exact absurd (List.map_eq_nil_iff.mp hp) (splitOn2_ne_nil '\n' '\n' text.data)
  | cons p1 rest =>
    rw [hp] at h
    have hp1 := h p1 (List.mem_cons_self p1 rest)
    have hrest : ∀ p ∈ rest, p ≠ "" ∧ count p ≤ maxTokens :=
      fun p hq => h p (List.mem_cons_of_mem p1 hq)
    simp only [paraLoop]
    rw [if_neg (show ¬(("" : String) ≠ "") by simp)]
    rw [if_neg (show ¬(count p1 > maxTokens) from Nat.not_lt.mpr hp1.2)]
    rw [paraLoop_join count maxTokens rest [] p1 hp1.1 hrest]
    rw [List.nil_append, ← hp]
    exact splitParagraphs_join text

/-- Claim C5 (amended), witness: a three-paragraph document within budget
round-trips through the chunker. -/
theorem chunk_concat_roundtrip_witness :
    (∀ p ∈ splitParagraphs "p1\n\np2\n\np3", p ≠ "" ∧ String.length p ≤ 4)
    ∧ joinSep "\n\n" (chunk_text String.length "p1\n\np2\n\np3" 4) = "p1\n\np2\n\np3" :=
  ⟨by decide,
   chunk_concat_roundtrip String.length "p1\n\np2\n\np3" 4 (by decide)⟩

/-! ## C7: well-formedness of the Section Map -/

theorem firstMatchFrom_lt (pat : HeaderPattern) :
    ∀ (cs : List Char) (k i : Nat),
      firstMatchFrom pat cs k = some i → i < k + cs.length := by
  intro cs
  induction cs with
  | nil => intro k i h; exact absurd h (by simp [firstMatchFrom])
  | cons c cs' ih =>
    intro k i h
    unfold firstMatchFrom at h
    by_cases hm : matchHeaderAt pat (c :: cs') = true
    · rw [if_pos hm] at h
      have : k = i := Option.some.inj h
      subst this
      simp
    · rw [if_neg hm] at h
      have := ih (k + 1) i h
      simp only [List.length_cons]
      omega

theorem rawPositions_bound (text : String) :
    ∀ x ∈ rawPositions text, x.1 ≤ text.data.length := by
  intro x hx
  unfold rawPositions at hx
  rcases List.mem_filterMap.mp hx with ⟨pn, _, hpn⟩
  cases hm : firstMatchPos pn.1 text.data with
  | none => rw [hm] at hpn; exact absurd hpn (by simp)
  | some i =>
    rw [hm] at hpn
    have hxi : x = (i, pn.2) := by
      simpa using hpn.symm
    subst hxi
    exact Nat.le_of_lt (by simpa using firstMatchFrom_lt pn.1 text.data 0 i hm)

theorem section_spans_starts (total : Nat) :
    ∀ ps : List (Nat × String),
      (section_spans total ps).map (fun sp => sp.2.1) = ps.map Prod.fst := by
  intro ps
  induction ps with
  | nil => rfl
  | cons p rest ih =>
    simp only [section_spans, List.map_cons, ih]

theorem section_spans_names (total : Nat) :
    ∀ ps : List (Nat × String),
      (section_spans total ps).map Prod.fst = ps.map Prod.snd := by
  intro ps
  induction ps with
  | nil => rfl
  | cons p rest ih =>
    simp only [section_spans, List.map_cons, ih]

theorem section_spans_start_mem (total : Nat) (ps : List (Nat × String)) :
    ∀ sp ∈ section_spans total ps, ∃ q ∈ ps, sp.2.1 = q.1 := by
  intro sp hsp
  have h1 : sp.2.1 ∈ (section_spans total ps).map (fun sp => sp.2.1) :=
    List.mem_map_of_mem _ hsp
  rw [section_spans_starts total ps] at h1
  rcases List.mem_map.mp h1 with ⟨q, hq, hq1⟩
  exact ⟨q, hq, hq1.symm⟩

theorem section_spans_wf (total : Nat) :
    ∀ ps : List (Nat × String),
      List.Sorted (fun x y => x.1 ≤ y.1) ps →
      (∀ x ∈ ps, x.1 ≤ total) →
      ((section_spans total ps).Pairwise fun x y => x.2.2 ≤ y.2.1)
      ∧ (∀ sp ∈ section_spans total ps, sp.2.1 ≤ sp.2.2)
      ∧ ((section_spans total ps).Pairwise fun x y => x.2.1 ≤ y.2.1) := by
  intro ps
  induction ps with
  | nil => intro _ _; exact ⟨List.Pairwise.nil, by simp [section_spans], List.Pairwise.nil⟩
  | cons p rest ih =>
    intro hsorted hbound
    have hall : ∀ y ∈ rest, p.1 ≤ y.1 := (List.sorted_cons.mp hsorted).1
    have hsrest : List.Sorted (fun x y => x.1 ≤ y.1) rest := (List.sorted_cons.mp hsorted).2
    have hbrest : ∀ x ∈ rest, x.1 ≤ total :=
      fun x hx => hbound x (List.mem_cons_of_mem p hx)
    obtain ⟨ihno, ihwf, ihord⟩ := ih hsrest hbrest
    cases p with
    | mk p1 name =>
      cases rest with
      | nil =>
        refine ⟨?_, ?_, ?_⟩
        · simp [section_spans]
        · intro sp hsp
          simp only [section_spans, List.mem_singleton] at hsp
          subst hsp
          exact hbound (p1, name) (by simp)
        · simp [section_spans]
      | cons q0 rest' =>
        have hq0 : p1 ≤ q0.1 := hall q0 (List.mem_cons_self q0 rest')
        have hq0all : ∀ sp ∈ section_spans total (q0 :: rest'), q0.1 ≤ sp.2.1 := by
          intro sp hsp
          rcases section_spans_start_mem total (q0 :: rest') sp hsp with ⟨q, hq, hspq⟩
          rcases List.mem_cons.mp hq with hq | hq
          · rw [hspq, hq]
          · rw [hspq]
            exact List.rel_of_sorted_cons hsrest q hq
        have hspanEq : section_spans total ((p1, name) :: q0 :: rest')
            = (name, p1, q0.1) :: section_spans total (q0 :: rest') := rfl
        refine ⟨?_, ?_, ?_⟩
        · rw [hspanEq]
          exact List.Pairwise.cons (fun sp hsp => hq0all sp hsp) ihno
        · rw [hspanEq]
          intro sp hsp
          rcases List.mem_cons.mp hsp with hsp | hsp
          · subst hsp; exact hq0
          · exact ihwf sp hsp
        · rw [hspanEq]
          refine List.Pairwise.cons (fun sp hsp => ?_) ihord
          exact le_trans hq0 (hq0all sp hsp)

theorem rawPositions_names_sublist (text : String) :
    List.Sublist ((rawPositions text).map Prod.snd) (section_patterns.map Prod.snd) := by
  unfold rawPositions
  generalize section_patterns = l
  induction l with
  | nil => simp
  | cons pn l ih =>
    simp only [List.filterMap_cons, List.map_cons]
    cases hm : firstMatchPos pn.1 text.data with
    | none =>
      simp only [Option.map_none']
      exact ih.cons pn.2
    | some i =>
      simp only [Option.map_some']
      exact ih.cons₂ pn.2

theorem sortPositions_names_nodup (text : String) :
    ((sortPositions (rawPositions text)).map Prod.snd).Nodup := by
  have hperm : List.Perm (sortPositions (rawPositions text)) (rawPositions text) :=
    List.perm_insertionSort posR (rawPositions text)
  have hnod : ((rawPositions text).map Prod.snd).Nodup := by
    refine List.Nodup.sublist (rawPositions_names_sublist text) ?_
    decide
  exact ((hperm.map Prod.snd).nodup_iff).mpr hnod

/-- Claim C7: the Section Map's spans are well-formed — ordered by start
position, non-overlapping (each span ends where the next begins, or at the
end of text), with at most one span per rule (only each rule's first match
is used, so duplicate headers create no extra segments), the sections being
exactly the stripped slices of those spans; and a text with no matching
header yields an empty map. -/
theorem section_map_wellformed :
    ∀ text : String,
      ((section_spans text.data.length (sortPositions (rawPositions text))).Pairwise
          fun x y => x.2.1 ≤ y.2.1)
      ∧ (∀ sp ∈ section_spans text.data.length (sortPositions (rawPositions text)),
          sp.2.1 ≤ sp.2.2)
      ∧ ((section_spans text.data.length (sortPositions (rawPositions text))).Pairwise
          fun x y => x.2.2 ≤ y.2.1)
      ∧ ((section_spans text.data.length (sortPositions (rawPositions text))).map
            Prod.fst).Nodup
      ∧ (detect_sections text
          = (section_spans text.data.length (sortPositions (rawPositions text))).map
              (fun sp => (sp.1, String.mk (pyStrip (slice text.data sp.2.1 sp.2.2)))))
      ∧ (rawPositions text = [] → detect_sections text = []) := by
  intro text
  have hsorted : List.Sorted (fun x y => x.1 ≤ y.1) (sortPositions (rawPositions text)) := by
    have h := List.sorted_insertionSort posR (rawPositions text)
    refine h.imp ?_
    intro x y hxy
    rcases hxy with h | ⟨h, _⟩
    · exact Nat.le_of_lt h
    · exact Nat.le_of_eq h
  have hbound : ∀ x ∈ sortPositions (rawPositions text), x.1 ≤ text.data.length := by
    intro x hx
    exact rawPositions_bound text x
      ((List.perm_insertionSort posR (rawPositions text)).mem_iff.mp hx)
  obtain ⟨hno, hwf, hord⟩ :=
    section_spans_wf text.data.length (sortPositions (rawPositions text)) hsorted hbound
  refine ⟨hord, hwf, hno, ?_, rfl, ?_⟩
  · rw [section_spans_names]
    exact sortPositions_names_nodup text
  · intro h
    unfold detect_sections
    rw [h]
    rfl

/-- Claim C7, witness: a text without any recognizable header produces an
empty Section Map, through the theorem's empty-case conclusion. -/
theorem section_map_wellformed_witness :
    rawPositions "hello" = [] ∧ detect_sections "hello" = [] :=
  ⟨by decide, (section_map_wellformed "hello").2.2.2.2.2 (by decide)⟩

end Summarizer
